import Mathlib

/-!
Verification of the merkle-patricia-trie storage adapter, branch index,
node-graph decoder and bump allocator, shallowly embedded from the Rust
sources (`storage.rs`, `children.rs`, `trie.rs`, `bump_allocator.rs`,
`host.rs`).

Machine integers are modelled as `Nat`/`Int` with explicit wrap-arounds
where the source can overflow (the guest is wasm32, so `usize` = `u32`).
Fatal aborts (the `abort!` macro, including panics reachable from the
modelled code paths) are modelled as `none`/`Option`.

The file is organised as: all definitions first, then all theorems.
-/

namespace MPT

/-- Byte strings (each entry is intended to be `< 256`). -/
abbrev Bytes := List Nat

/-! ## Host storage model

The host exposes `get_storage` / `set_storage` / `clear_storage` over a
single-key store (`host.rs` declares them; the JS side implements them).
Modelled from the spec: the host store is a finite map from byte keys to
byte values; `set_storage`/`clear_storage` always succeed (status `0`)
and `get_storage` returns status `3` ("key not found") for an absent key
and the stored bytes otherwise (spec section 6, "Host call surface"). -/
abbrev Hst := List (Bytes × Bytes)

/-- Lookup of a key in the host store. -/
def hsGet : Hst → Bytes → Option Bytes
  | [], _ => none
  | (k', v) :: rest, k => if k' = k then some v else hsGet rest k

/-- Insert-or-replace of a key in the host store (`set_storage`). -/
def hsSet : Hst → Bytes → Bytes → Hst
  | [], k, v => [(k, v)]
  | (k', v') :: rest, k, v =>
    if k' = k then (k, v) :: rest else (k', v') :: hsSet rest k v

/-- Removal of a key from the host store (`clear_storage`). -/
def hsClear : Hst → Bytes → Hst
  | [], _ => []
  | (k', v') :: rest, k =>
    if k' = k then hsClear rest k else (k', v') :: hsClear rest k

/-- Result of one `HostFnImpl::get_storage` call: either the stored bytes
(status `0`, buffer filled) or a nonzero failure status code. -/
inductive HostGetResult where
  | ok (v : Bytes)
  | fail (code : Nat)
deriving DecidableEq

/-- The map-backed host's `get_storage`: status `3` for an absent key. -/
def hostGet (s : Hst) (k : Bytes) : HostGetResult :=
  match hsGet s k with
  | some v => .ok v
  | none => .fail 3

/-! ## Content-addressed refcounted store (`storage.rs`, `ExternalDB`) -/

/-- The distinguished empty-trie hash `HASHED_NULL_NODE`
(`hex!("03170a2e7597b7b7e3d84c05391d139a62b157e78786d8c082f29dcf4c111314")`). -/
def HASHED_NULL_NODE : Bytes :=
  [3, 23, 10, 46, 117, 151, 183, 183, 227, 216, 76, 5, 57, 29, 19, 154,
   98, 177, 87, 231, 135, 134, 216, 192, 130, 242, 157, 207, 76, 17, 19, 20]

/-- The derived reference-counter key: the 32-byte content hash with the
marker byte `0xff` appended (a 33-byte key). -/
def counterKey (k : Bytes) : Bytes := k ++ [255]

/-- Encoding of an `i32` counter as its 4 little-endian bytes (wasm32 is
little-endian, so `i32::to_ne_bytes` is little-endian). -/
def encodeI32 (n : Int) : Bytes :=
  let u := (n % 4294967296).toNat
  [u % 256, u / 256 % 256, u / 65536 % 256, u / 16777216 % 256]

/-- Decoding 4 little-endian bytes to an `i32` value
(`i32::from_ne_bytes`, two's complement). -/
def decodeI32 (b : Bytes) : Int :=
  let u : Nat := b.getD 0 0 + 256 * b.getD 1 0 + 65536 * b.getD 2 0 + 16777216 * b.getD 3 0
  if u < 2147483648 then (u : Int) else (u : Int) - 4294967296

/-- Wrapping `i32` arithmetic result (Rust release-mode overflow wraps). -/
def i32wrap (n : Int) : Int := (n + 2147483648) % 4294967296 - 2147483648

/-- `ExternalDB::get_storage_counter`: read the 4-byte counter under the
derived key; host status `3` or an empty buffer mean count `0`; any other
failure status, or a reported length other than 4 (including lengths
above the 4-byte buffer, which panic in `extract_from_slice`), aborts. -/
def get_storage_counter (s : Hst) (key : Bytes) : Option Int :=
  match hostGet s (counterKey key) with
  | .fail code => if code = 3 then some 0 else none
  | .ok v => if v = [] then some 0 else if v.length = 4 then some (decodeI32 v) else none

/-- `ExternalDB::set_storage_counter`: a zero counter clears the derived
key; a nonzero counter stores its 4 `to_ne_bytes` bytes. -/
def set_storage_counter (s : Hst) (key : Bytes) (counter : Int) : Hst :=
  if counter = 0 then hsClear s (counterKey key)
  else hsSet s (counterKey key) (encodeI32 counter)

/-- `ExternalDB::internal_emplace`: increment the counter; on the `0 → 1`
transition also write the value under the content-hash key. -/
def internal_emplace (s : Hst) (key value : Bytes) : Option Hst := do
  let c ← get_storage_counter s key
  let counter := i32wrap (c + 1)
  let s' := if counter = 1 then hsSet s key value else s
  some (set_storage_counter s' key counter)

/-- `MAX_VALUE_SIZE` from `storage.rs`. -/
def MAX_VALUE_SIZE : Nat := 4096

/-- `HashDB::get` for `ExternalDB`: the null-node hash is synthesized as
`[0]`; host status `3` is absence; any other failure status aborts; a
value whose reported length reaches the `MAX_VALUE_SIZE` buffer capacity
aborts (buffer overflow; lengths above the buffer panic earlier in
`extract_from_slice`). Outer `none` is a fatal abort. -/
def dbGet (s : Hst) (key : Bytes) : Option (Option Bytes) :=
  if key = HASHED_NULL_NODE then some (some [0])
  else
    match hostGet s key with
    | .fail code => if code = 3 then some none else none
    | .ok v => if MAX_VALUE_SIZE ≤ v.length then none else some (some v)

/-- `HashDB::contains` for `ExternalDB`. -/
def dbContains (s : Hst) (key : Bytes) : Option Bool :=
  if key = HASHED_NULL_NODE then some true
  else (get_storage_counter s key).map (fun c => decide (0 < c))

/-- `HashDB::insert` for `ExternalDB`, parametrized by the (external)
Blake2 content-hash function: an empty value or the empty-node encoding
`[0]` short-circuits to the null-node hash. -/
def dbInsert (hash : Bytes → Bytes) (s : Hst) (value : Bytes) : Option (Bytes × Hst) :=
  if value = [] ∨ value = [0] then some (HASHED_NULL_NODE, s)
  else
    let key := hash value
    (internal_emplace s key value).map (fun s' => (key, s'))

/-- `HashDB::emplace` for `ExternalDB`. -/
def dbEmplace (s : Hst) (key value : Bytes) : Option Hst :=
  if value = [] ∨ key = HASHED_NULL_NODE then some s
  else internal_emplace s key value

/-- `HashDB::remove` for `ExternalDB`: read the counter; at exactly `1`
clear the value entry and (via `set_storage_counter _ _ 0`) the counter
entry; above `1` only decrement; at `0` (or below) do nothing. -/
def dbRemove (s : Hst) (key : Bytes) : Option Hst :=
  if key = HASHED_NULL_NODE then some s
  else do
    let counter ← get_storage_counter s key
    let s' := if counter = 1 then hsClear s key else s
    if 0 < counter then some (set_storage_counter s' key (counter - 1)) else some s'

/-- `ExternalDB::get_root_hash`, decision part, as a function of the raw
host response for the root slot (the empty key): a 32-byte success is the
found path; a 0-byte success or status `3` bootstraps the null-node hash
(the `Bool` records whether the constant is written back); any other
reported success length, or any other failure status, aborts. -/
def get_root_hash_resp (resp : HostGetResult) : Option (Bytes × Bool) :=
  match resp with
  | .ok v =>
    if v.length = 32 then some (v, false)
    else if v.length = 0 then some (HASHED_NULL_NODE, true)
    else none
  | .fail code => if code = 3 then some (HASHED_NULL_NODE, true) else none

/-- `ExternalDB::get_root_hash` against the map-backed host: the root
slot is the empty key (`EMPTY_PTR` is a zero-length slice), and
`set_root_hash` persists the bootstrapped constant. -/
def get_root_hash (s : Hst) : Option (Bytes × Hst) :=
  (get_root_hash_resp (hostGet s [])).map
    (fun r => (r.1, if r.2 then hsSet s [] r.1 else s))

/-- Iterated `internal_emplace` of the same key/value pair (the shared
path of repeated `insert`/`emplace` calls for one content hash). -/
def emplaceN (k v : Bytes) : Nat → Hst → Option Hst
  | 0, s => some s
  | n + 1, s => (emplaceN k v n s).bind (fun s' => internal_emplace s' k v)

/-- A concrete stand-in content-hash function used by witnesses. -/
def constHash : Bytes → Bytes := fun _ => List.replicate 32 9

/-! ## Sparse branch index (`children.rs`) -/

/-- The value of `usize::MAX` on wasm32 (`usize` = `u32`), used by
`Children::new` as the empty-slot sentinel. -/
def USIZE_MAX : Nat := 4294967295

/-- The `Children` struct: a 16-bit presence mask and 16 slots. -/
structure Children where
  mask : Nat
  children : List Nat
deriving DecidableEq

/-- `Children::new()`: empty mask, all slots at the sentinel. -/
def Children.new : Children := ⟨0, List.replicate 16 USIZE_MAX⟩

/-- `Children::push(val, nib)`: `1u16.wrapping_shl(nib)` is
`1 <<< (nib % 16)`; aborts (`none`) when `nib ≥ 16` or the bit is
already set; otherwise stores the slot and sets the bit. -/
def Children.push (c : Children) (val : Nat) (nib : Nat) : Option Children :=
  let flag := 2 ^ (nib % 16)
  if 16 ≤ nib ∨ flag &&& c.mask ≠ 0 then none
  else some ⟨c.mask ||| flag, c.children.set nib val⟩

/-- Folding `Children.push` over a list of `(reference, nibble)` pairs. -/
def pushList (c : Children) : List (Nat × Nat) → Option Children
  | [] => some c
  | p :: rest =>
    match c.push p.1 p.2 with
    | none => none
    | some c' => pushList c' rest

/-- All pairs pushed into a fresh `Children`. -/
def pushAll (ps : List (Nat × Nat)) : Option Children := pushList Children.new ps

/-- The `ChildrenIter` low-bit isolation `((!mask) + 1) & mask` in `u16`
arithmetic: `!mask = 65535 - mask`, so `(!mask) + 1 = (65536 - mask) % 65536`. -/
def lowBit16 (mask : Nat) : Nat := ((65536 - mask) % 65536) &&& mask

/-- Trailing-zero scan with explicit fuel (structural recursion). -/
def ctzGo : Nat → Nat → Nat
  | 0, _ => 0
  | fuel + 1, n => if n % 2 = 1 then 0 else ctzGo fuel (n / 2) + 1

/-- Trailing-zero count of a `u16` (`u16::trailing_zeros`): index of the
lowest set bit among the 16 bits, `16` for zero input. -/
def ctz (n : Nat) : Nat := ctzGo 16 n

/-- `ChildrenIter::next` run to exhaustion, with explicit fuel (the mask
is a `u16` with at most 16 set bits and each step clears one, so fuel 16
always suffices; running out of fuel yields `none` like an abort, which
is unreachable from real masks). Each step isolates the lowest set bit,
clears it, reads the slot at its index, and aborts (`none`) if the slot
still holds the `usize::MAX` sentinel. -/
def iterGo (ch : List Nat) : Nat → Nat → Option (List (Nat × Nat))
  | _, 0 => some []
  | 0, _ + 1 => none
  | fuel + 1, mask + 1 =>
    let m := mask + 1
    let nxt := lowBit16 m
    let off := ctz nxt
    let val := ch.getD off 0
    if val = USIZE_MAX then none
    else
      match iterGo ch fuel (m ^^^ nxt) with
      | none => none
      | some rest => some ((val, off) :: rest)

/-- Complete iteration of a `Children` value (`iter().collect()`). -/
def iterAll (c : Children) : Option (List (Nat × Nat)) := iterGo c.children 16 c.mask

/-- The set-bit indices of a 16-bit mask, in ascending order. -/
def maskBits (mask : Nat) : List Nat := (List.range 16).filter (fun i => mask.testBit i)

/-! ## Bump allocator (`bump_allocator.rs`) -/

/-- A wasm page is 64 KiB. -/
def PAGE_SIZE : Nat := 65536

/-- One past `u32::MAX`: the wrap-around modulus of wasm32 `usize`. -/
def U32_LIMIT : Nat := 4294967296

/-- The `InnerAlloc` cursor pair. -/
structure InnerAlloc where
  next : Nat
  upper_limit : Nat
deriving DecidableEq

/-- `required_pages(size)`: `size.checked_add(PAGE_SIZE - 1)` then
division; `none` models the checked-add overflow. -/
def required_pages (size : Nat) : Option Nat :=
  if U32_LIMIT ≤ size + (PAGE_SIZE - 1) then none
  else some ((size + (PAGE_SIZE - 1)) / PAGE_SIZE)

/-- `request_pages(pages)` for wasm: `memory_grow` returns the previous
page count, i.e. the old end of memory. `upper_limit` always equals the
byte size of memory (`heap_end()` initially, and the post-grow limit
after each growth), so the newly granted region starts at `upper_limit`;
growth fails when the 4 GiB wasm32 memory ceiling would be exceeded.
The unit-test configuration in the source (`request_pages` returning
`Some(self.upper_limit)`) matches this model directly. -/
def request_pages (s : InnerAlloc) (pages : Nat) : Option Nat :=
  if s.upper_limit / PAGE_SIZE + pages ≤ 65536 then some s.upper_limit else none

/-- `InnerAlloc::align_ptr`: `(self.next + align - 1) & !(align - 1)` in
`u32` arithmetic: the sum wraps modulo `2^32` and `!(align - 1)` is
`2^32 - align` for `align ≥ 1`. -/
def align_ptr (next a : Nat) : Nat := ((next + a - 1) % U32_LIMIT) &&& (U32_LIMIT - a)

/-- `InnerAlloc::alloc` for a layout of `size` bytes and alignment `a`:
align the cursor; on overflow of any checked operation or on growth
failure return `none` (the global allocator then returns null and the
runtime aborts); if the request fits below `upper_limit` bump the cursor,
otherwise grow by whole pages and serve from the start of the new region
(the old region's tail is abandoned). -/
def alloc (s : InnerAlloc) (size a : Nat) : Option (Nat × InnerAlloc) :=
  let alloc_start := align_ptr s.next a
  if U32_LIMIT ≤ alloc_start + size then none
  else
    let alloc_end := alloc_start + size
    if s.upper_limit < alloc_end then
      (required_pages size).bind (fun pages =>
        (request_pages s pages).bind (fun page_start =>
          if U32_LIMIT ≤ pages * PAGE_SIZE then none
          else if U32_LIMIT ≤ page_start + pages * PAGE_SIZE then none
          else if U32_LIMIT ≤ page_start + size then none
          else some (page_start, ⟨page_start + size, page_start + pages * PAGE_SIZE⟩)))
    else some (alloc_start, ⟨alloc_end, s.upper_limit⟩)

/-- A well-formed allocator state: the free cursor is below the limit,
the limit is whole pages, and the limit is a representable `u32`. -/
def validAlloc (s : InnerAlloc) : Prop :=
  s.next ≤ s.upper_limit ∧ s.upper_limit % PAGE_SIZE = 0 ∧ s.upper_limit < U32_LIMIT

/-- Run a sequence of allocation requests `(size, alignment exponent)`;
alignments are powers of two by the `Layout` invariant. Returns the
served `(offset, size)` regions and the final state, or `none` if any
allocation fails. -/
def allocSeq (s : InnerAlloc) : List (Nat × Nat) → Option (List (Nat × Nat) × InnerAlloc)
  | [] => some ([], s)
  | (size, k) :: rest =>
    (alloc s size (2 ^ k)).bind (fun r =>
      (allocSeq r.2 rest).map (fun pr => ((r.1, size) :: pr.1, pr.2)))

/-! ## Node graph decoder (`trie.rs`) -/

mutual

/-- A parsed node plan. `NodeCodec::decode_plan` and the byte-level node
encoding are external (`sp_trie`), so stored node encodings are modelled
as already-parsed plans; child handles mirror `NodeHandlePlan`
(out-of-line 32-byte hash reference or inline bytes). -/
inductive PlanTree where
  | empty : PlanTree
  | leaf (nib : List Nat) (value : Bytes) : PlanTree
  | branch (value : Option Bytes) (children : List (Option HandleT)) : PlanTree
  | nibbledBranch (nib : List Nat) (value : Option Bytes)
      (children : List (Option HandleT)) : PlanTree
  | extension (nib : List Nat) (child : HandleT) : PlanTree

/-- A child handle (`NodeHandlePlan`). -/
inductive HandleT where
  | hash (h : Bytes) : HandleT
  | inline (t : PlanTree) : HandleT

end

/-- The decoded `TrieNode` descriptor (`raw_bytes` is omitted: it merely
retains the encoding for inline nodes and carries no decoded structure). -/
structure TrieNodeM where
  id : Option Bytes
  nibbles : Option (List Nat)
  value : Option Bytes
  children : Children

/-- `nibble_to_str`: an empty partial key becomes `None`. -/
def nibOpt (nib : List Nat) : Option (List Nat) :=
  if nib = [] then none else some nib

/-- The node database seen by the decoder: content hash to parsed plan
(the composition of the store's `get` with the external `decode_plan`). -/
def dbLookup : List (Bytes × PlanTree) → Bytes → Option PlanTree
  | [], _ => none
  | (k, t) :: rest, key => if k = key then some t else dbLookup rest key

/-- The dedup scan of `decode_child_recursive`: first already-decoded
node whose identity hash matches. -/
def findIdx (nodes : List TrieNodeM) (key : Bytes) : Option Nat :=
  nodes.findIdx? (fun n => n.id = some key)

mutual

/-- `decode_child_recursive`: aborts (`none`) immediately when no branch
nibble is supplied (`abort!("extension node not supported")` — the
Extension arm passes `None`); otherwise resolves a hash child through the
dedup scan and the node database, or decodes an inline child directly,
and pushes the resulting node index under the nibble. Fuel bounds the
recursion depth (running out of fuel also yields `none`). -/
def decodeChild (db : List (Bytes × PlanTree)) (fuel : Nat) (parent : TrieNodeM)
    (child : HandleT) (nibArg : Option Nat) (nodes : List TrieNodeM) :
    Option (TrieNodeM × List TrieNodeM) :=
  match fuel with
  | 0 => none
  | fuel + 1 =>
    match nibArg with
    | none => none
    | some nib =>
      match child with
      | .hash key =>
        match findIdx nodes key with
        | some idx =>
          (parent.children.push idx nib).map (fun ch => ({ parent with children := ch }, nodes))
        | none =>
          match dbLookup db key with
          | none => none
          | some t =>
            match decodeRec db fuel t (some key) nodes with
            | none => none
            | some (idx, nodes') =>
              (parent.children.push idx nib).map
                (fun ch => ({ parent with children := ch }, nodes'))
      | .inline t =>
        match decodeRec db fuel t none nodes with
        | none => none
        | some (idx, nodes') =>
          (parent.children.push idx nib).map
            (fun ch => ({ parent with children := ch }, nodes'))

/-- `decode_children_recursive`: walk the 16 child slots in nibble order,
skipping absent ones. -/
def decodeChildren (db : List (Bytes × PlanTree)) (fuel : Nat) (parent : TrieNodeM)
    (cs : List (Option HandleT)) (i : Nat) (nodes : List TrieNodeM) :
    Option (TrieNodeM × List TrieNodeM) :=
  match fuel with
  | 0 => none
  | fuel + 1 =>
    match cs with
    | [] => some (parent, nodes)
    | none :: rest => decodeChildren db fuel parent rest (i + 1) nodes
    | some c :: rest =>
      match decodeChild db fuel parent c (some i) nodes with
      | none => none
      | some (parent', nodes') => decodeChildren db fuel parent' rest (i + 1) nodes'

/-- `decode_recursive`: build the `TrieNode` for a parsed plan, resolving
children, then append it to the flat node list and return its index. -/
def decodeRec (db : List (Bytes × PlanTree)) (fuel : Nat) (t : PlanTree)
    (nodeId : Option Bytes) (nodes : List TrieNodeM) : Option (Nat × List TrieNodeM) :=
  match fuel with
  | 0 => none
  | fuel + 1 =>
    match t with
    | .empty =>
      some (nodes.length, nodes ++ [⟨nodeId, none, none, Children.new⟩])
    | .leaf nib v =>
      some (nodes.length, nodes ++ [⟨nodeId, nibOpt nib, some v, Children.new⟩])
    | .branch v cs =>
      match decodeChildren db fuel ⟨nodeId, none, v, Children.new⟩ cs 0 nodes with
      | none => none
      | some (parent, nodes') => some (nodes'.length, nodes' ++ [parent])
    | .nibbledBranch nib v cs =>
      match decodeChildren db fuel ⟨nodeId, nibOpt nib, v, Children.new⟩ cs 0 nodes with
      | none => none
      | some (parent, nodes') => some (nodes'.length, nodes' ++ [parent])
    | .extension nib c =>
      match decodeChild db fuel ⟨nodeId, nibOpt nib, none, Children.new⟩ c none nodes with
      | none => none
      | some (parent, nodes') => some (nodes'.length, nodes' ++ [parent])

end

/-- `MerklePatriciaTrie::nodes`: fetch the root encoding and decode it
(aborts when the root hash has no stored value). -/
def decodeTrie (db : List (Bytes × PlanTree)) (rootHash : Bytes) (fuel : Nat) :
    Option (Nat × List TrieNodeM) :=
  match dbLookup db rootHash with
  | none => none
  | some t => decodeRec db fuel t (some rootHash) []

/-! ## Dispatch input framing (`trie.rs`, `MerklePatriciaTrie`) -/

/-- Little-endian `u32` read of the first four bytes. -/
def fromLE4 (b : Bytes) : Nat :=
  b.getD 0 0 + 256 * b.getD 1 0 + 65536 * b.getD 2 0 + 16777216 * b.getD 3 0

/-- Little-endian `u32` encoding in four bytes. -/
def toLE4 (n : Nat) : Bytes :=
  [n % 256, n / 256 % 256, n / 65536 % 256, n / 16777216 % 256]

/-- `MerklePatriciaTrie::extract_input`: split off a `u32`-LE length
header (abort if fewer than 4 bytes), then split off that many bytes
(abort if out of bounds); returns the chunk and the remainder. -/
def extract_input (input : Bytes) : Option (Bytes × Bytes) :=
  if input.length < 4 then none
  else
    let key_len := fromLE4 (input.take 4)
    let rest := input.drop 4
    if rest.length < key_len then none
    else some (rest.take key_len, rest.drop key_len)

/-- The parsing phase of `MerklePatriciaTrie::insert` (dispatch code 0):
`extract_input` once for the key and once again for the value, aborting
unless the input is fully consumed. -/
def trieInsertParse (input : Bytes) : Option (Bytes × Bytes) := do
  let (key, rest) ← extract_input input
  let (value, rest2) ← extract_input rest
  if rest2 = [] then some (key, value) else none

/-- The input framing asserted by the claim for dispatch code 0: a
`u32`-LE key length, the key bytes, then the value bytes filling the
remainder of the buffer. -/
def claimFraming (key value : Bytes) : Bytes := toLE4 key.length ++ key ++ value

/-- The framing the code actually parses: both the key and the value are
length-prefixed, and the value's chunk must consume the rest exactly. -/
def codeFraming (key value : Bytes) : Bytes :=
  toLE4 key.length ++ key ++ toLE4 value.length ++ value

/-- The state of a `Children` built by a sequence of successful pushes:
the mask is a `u16`, the slot array still has its 16 entries, the mask
bits are exactly the pushed nibbles, each pushed pair is stored in its
slot, and the pushed nibbles are distinct and in range. -/
def pushedInv (ps : List (Nat × Nat)) (c : Children) : Prop :=
  c.mask < 65536 ∧ c.children.length = 16 ∧
  (∀ i, i < 16 → (c.mask.testBit i = true ↔ i ∈ ps.map Prod.snd)) ∧
  (∀ r i, (r, i) ∈ ps → c.children.getD i 0 = r) ∧
  (ps.map Prod.snd).Nodup ∧
  (∀ i, i ∈ ps.map Prod.snd → i < 16)

/-! # Theorems -/

/-! ## Host store basics -/

theorem hsGet_hsSet_self (s : Hst) (k v : Bytes) : hsGet (hsSet s k v) k = some v := by
  induction s with
  | nil => simp [hsSet, hsGet]
  | cons hd tl ih =>
    obtain ⟨k', v'⟩ := hd
    by_cases h : k' = k <;> simp [hsSet, hsGet, h, ih]

theorem hsGet_hsSet_ne (s : Hst) (k k' v : Bytes) (h : k ≠ k') :
    hsGet (hsSet s k v) k' = hsGet s k' := by
  induction s with
  | nil => simp [hsSet, hsGet, h]
  | cons hd tl ih =>
    obtain ⟨k0, v0⟩ := hd
    by_cases h0 : k0 = k
    · subst h0
      simp [hsSet, hsGet, h]
    · simp [hsSet, hsGet, h0, ih]

theorem hsGet_hsClear_self (s : Hst) (k : Bytes) : hsGet (hsClear s k) k = none := by
  induction s with
  | nil => simp [hsClear, hsGet]
  | cons hd tl ih =>
    obtain ⟨k0, v0⟩ := hd
    by_cases h0 : k0 = k <;> simp [hsClear, hsGet, h0, ih]

theorem hsGet_hsClear_ne (s : Hst) (k k' : Bytes) (h : k ≠ k') :
    hsGet (hsClear s k) k' = hsGet s k' := by
  induction s with
  | nil => simp [hsClear, hsGet]
  | cons hd tl ih =>
    obtain ⟨k0, v0⟩ := hd
    by_cases h0 : k0 = k
    · subst h0
      simp [hsClear, hsGet, h, ih]
    · simp [hsClear, hsGet, h0, ih]

theorem counterKey_ne_self (k : Bytes) : counterKey k ≠ k := by
  intro h
  have := congrArg List.length h
  simp [counterKey] at this

/-! ## Counter codec and `i32` arithmetic -/

theorem encodeI32_length (n : Int) : (encodeI32 n).length = 4 := rfl

theorem encodeI32_ne_nil (n : Int) : encodeI32 n ≠ [] := by
  intro h
  have := congrArg List.length h
  simp [encodeI32_length] at this

theorem decode_encode_i32 (n : Int) (h0 : 0 ≤ n) (h1 : n < 2147483648) :
    decodeI32 (encodeI32 n) = n := by
  have hmod : n % 4294967296 = n := Int.emod_eq_of_lt h0 (by omega)
  have hun : ((n % 4294967296).toNat : Int) = n := by rw [hmod]; exact Int.toNat_of_nonneg h0
  set u := (n % 4294967296).toNat with hu
  have hub : u < 2147483648 := by omega
  have hs : u % 256 + 256 * (u / 256 % 256) + 65536 * (u / 65536 % 256)
      + 16777216 * (u / 16777216 % 256) = u := by omega
  simp only [encodeI32, decodeI32, List.getD, List.get?_cons_zero, List.get?_cons_succ,
    Option.getD_some]
  rw [← hu, hs, if_pos hub, hun]

theorem i32wrap_eq (n : Int) (h0 : 0 ≤ n) (h1 : n < 2147483648) : i32wrap n = n := by
  have : (n + 2147483648) % 4294967296 = n + 2147483648 :=
    Int.emod_eq_of_lt (by omega) (by omega)
  unfold i32wrap
  omega

theorem i32wrap_add_one_ne_one (c : Int) (h0 : 0 < c) (h1 : c < 2147483648) :
    i32wrap (c + 1) ≠ 1 := by
  unfold i32wrap
  omega

/-! ## Reference-counter reads -/

theorem counter_absent (s : Hst) (k : Bytes) (h : hsGet s (counterKey k) = none) :
    get_storage_counter s k = some 0 := by
  simp [get_storage_counter, hostGet, h]

theorem counter_present (s : Hst) (k : Bytes) (n : Int)
    (h : hsGet s (counterKey k) = some (encodeI32 n)) (h0 : 0 ≤ n) (h1 : n < 2147483648) :
    get_storage_counter s k = some n := by
  simp [get_storage_counter, hostGet, h, encodeI32_ne_nil, encodeI32_length,
    decode_encode_i32 n h0 h1]

/-- Shared helper: `get` aborts on a present value whose reported length
reaches the buffer capacity. -/
theorem dbGet_abort_of_large (s : Hst) (k v : Bytes) (hk : k ≠ HASHED_NULL_NODE)
    (hv : hsGet s k = some v) (hl : MAX_VALUE_SIZE ≤ v.length) : dbGet s k = none := by
  simp [dbGet, hostGet, hk, hv, hl]

/-! ## Claim C5 -/

/-- C5: for the distinguished empty-trie hash, all five store operations
short-circuit: `get` synthesizes `[0]`, `contains` is true, `insert` of
the empty-node encoding (`[]` or `[0]`) returns the constant, `emplace`
and `remove` return immediately, and the host store is left unchanged in
every case. -/
theorem c5_null_node_short_circuit (s : Hst) (hash : Bytes → Bytes) (v : Bytes) :
    dbGet s HASHED_NULL_NODE = some (some [0]) ∧
    dbContains s HASHED_NULL_NODE = some true ∧
    dbInsert hash s [0] = some (HASHED_NULL_NODE, s) ∧
    dbInsert hash s [] = some (HASHED_NULL_NODE, s) ∧
    dbEmplace s HASHED_NULL_NODE v = some s ∧
    dbRemove s HASHED_NULL_NODE = some s := by
  refine ⟨?_, ?_, ?_, ?_, ?_, ?_⟩ <;>
    simp [dbGet, dbContains, dbInsert, dbEmplace, dbRemove]

/-! ## Claim C6 -/

/-- C6: reading the root hash from a store whose root slot is absent
returns the empty-trie constant and persists it to the root slot, so a
second read returns the same constant through the found path with no
further write; any host status other than success (`0`) or not-found
(`3`) on the root read is fatal. -/
theorem c6_root_bootstrap (s : Hst) (habs : hsGet s [] = none) :
    get_root_hash s = some (HASHED_NULL_NODE, hsSet s [] HASHED_NULL_NODE) ∧
    get_root_hash (hsSet s [] HASHED_NULL_NODE) =
      some (HASHED_NULL_NODE, hsSet s [] HASHED_NULL_NODE) ∧
    (∀ code : Nat, code ≠ 0 → code ≠ 3 → get_root_hash_resp (.fail code) = none) := by
  refine ⟨?_, ?_, ?_⟩
  · simp [get_root_hash, hostGet, habs, get_root_hash_resp]
  · have h2 : hsGet (hsSet s [] HASHED_NULL_NODE) [] = some HASHED_NULL_NODE :=
      hsGet_hsSet_self s [] HASHED_NULL_NODE
    have hlen : HASHED_NULL_NODE.length = 32 := by decide
    simp [get_root_hash, hostGet, h2, get_root_hash_resp, hlen]
  · intro code _ h3
    simp [get_root_hash_resp, h3]

/-- Witness for C6 at the empty host store. -/
theorem c6_root_bootstrap_witness :
    get_root_hash [] = some (HASHED_NULL_NODE, hsSet [] [] HASHED_NULL_NODE) :=
  (c6_root_bootstrap [] rfl).1

/-! ## Claim C4 (corrected) -/

/-- C4, counterexample to the claim as stated: a stored value of length
exactly `MAX_VALUE_SIZE` (so "at most the maximum") makes `get` abort
instead of returning it. -/
theorem c4_get_max_counterexample :
    hsGet [(List.replicate 32 0, List.replicate 4096 7)] (List.replicate 32 0) =
      some (List.replicate 4096 7) ∧
    (List.replicate 4096 7 : Bytes).length ≤ MAX_VALUE_SIZE ∧
    dbGet [(List.replicate 32 0, List.replicate 4096 7)] (List.replicate 32 0) = none := by
  refine ⟨rfl, ?_, ?_⟩
  · rw [List.length_replicate]
    decide
  · refine dbGet_abort_of_large _ _ (List.replicate 4096 7) (by decide) rfl ?_
    rw [List.length_replicate]
    decide

/-- C4 as amended: store `get` on a present key is fatal exactly when
the host reports a value length of at least `MAX_VALUE_SIZE` (a full
buffer may have been truncated); every stored value shorter than the
maximum is returned without aborting. -/
theorem c4_get_fatal_iff_max (s : Hst) (k v : Bytes) (hk : k ≠ HASHED_NULL_NODE)
    (hv : hsGet s k = some v) :
    (dbGet s k = none ↔ MAX_VALUE_SIZE ≤ v.length) ∧
    (v.length < MAX_VALUE_SIZE → dbGet s k = some (some v)) := by
  constructor
  · by_cases hl : MAX_VALUE_SIZE ≤ v.length <;> simp [dbGet, hostGet, hk, hv, hl]
  · intro hl
    simp [dbGet, hostGet, hk, hv, Nat.not_le.mpr hl]

/-- Witness for C4 at a two-byte stored value. -/
theorem c4_get_fatal_iff_max_witness :
    dbGet [(List.replicate 32 0, [1, 2])] (List.replicate 32 0) = some (some [1, 2]) :=
  (c4_get_fatal_iff_max [(List.replicate 32 0, [1, 2])] (List.replicate 32 0) [1, 2]
    (by decide) rfl).2 (by decide)

/-! ## Claim C1 (corrected) -/

/-- C1, counterexample to the claim as stated: for the value `[]` (and
likewise `[0]`, the empty-node encodings), two inserts and one remove
leave the counter at `0`, not `1`, and the value is not retrievable as
itself (`get` synthesizes `[0]`). -/
theorem c1_remove_counterexample :
    dbInsert constHash [] [] = some (HASHED_NULL_NODE, []) ∧
    dbRemove [] HASHED_NULL_NODE = some [] ∧
    ¬ get_storage_counter [] HASHED_NULL_NODE = some 1 ∧
    ¬ dbGet [] HASHED_NULL_NODE = some (some []) := by
  refine ⟨?_, ?_, ?_, ?_⟩ <;> decide

/-- C1 as amended: `remove` follows the refcount protocol (counter `0`:
no host write; exactly `1`: clear the value and counter entries; above
`1`: decrement without touching the value); and for any value other than
the empty-node encodings (`[]`, `[0]`), of length below the maximum and
whose content hash is not the null-node constant, two inserts followed by
one remove leave the value retrievable with counter `1`, and a second
remove makes `get` report absence and clears the counter key. -/
theorem c1_remove_refcount_protocol (k : Bytes) (hk : k ≠ HASHED_NULL_NODE) :
    (∀ s : Hst, get_storage_counter s k = some 0 → dbRemove s k = some s) ∧
    (∀ s : Hst, hsGet s (counterKey k) = some (encodeI32 1) →
      dbRemove s k = some (hsClear (hsClear s k) (counterKey k))) ∧
    (∀ (s : Hst) (c : Int), 1 < c → c < 2147483648 →
      hsGet s (counterKey k) = some (encodeI32 c) →
      dbRemove s k = some (hsSet s (counterKey k) (encodeI32 (c - 1))) ∧
      hsGet (hsSet s (counterKey k) (encodeI32 (c - 1))) k = hsGet s k) ∧
    (∀ (v : Bytes) (hash : Bytes → Bytes), v ≠ [] → v ≠ [0] → v.length < MAX_VALUE_SIZE →
      hash v = k →
      dbInsert hash [] v =
        some (k, hsSet (hsSet [] k v) (counterKey k) (encodeI32 1)) ∧
      dbInsert hash (hsSet (hsSet [] k v) (counterKey k) (encodeI32 1)) v =
        some (k, hsSet (hsSet (hsSet [] k v) (counterKey k) (encodeI32 1)) (counterKey k)
          (encodeI32 2)) ∧
      dbRemove (hsSet (hsSet (hsSet [] k v) (counterKey k) (encodeI32 1)) (counterKey k)
          (encodeI32 2)) k =
        some (hsSet (hsSet (hsSet (hsSet [] k v) (counterKey k) (encodeI32 1)) (counterKey k)
          (encodeI32 2)) (counterKey k) (encodeI32 1)) ∧
      dbGet (hsSet (hsSet (hsSet (hsSet [] k v) (counterKey k) (encodeI32 1)) (counterKey k)
          (encodeI32 2)) (counterKey k) (encodeI32 1)) k = some (some v) ∧
      get_storage_counter (hsSet (hsSet (hsSet (hsSet [] k v) (counterKey k) (encodeI32 1))
          (counterKey k) (encodeI32 2)) (counterKey k) (encodeI32 1)) k = some 1 ∧
      dbRemove (hsSet (hsSet (hsSet (hsSet [] k v) (counterKey k) (encodeI32 1)) (counterKey k)
          (encodeI32 2)) (counterKey k) (encodeI32 1)) k =
        some (hsClear (hsClear (hsSet (hsSet (hsSet (hsSet [] k v) (counterKey k)
          (encodeI32 1)) (counterKey k) (encodeI32 2)) (counterKey k) (encodeI32 1)) k)
          (counterKey k)) ∧
      dbGet (hsClear (hsClear (hsSet (hsSet (hsSet (hsSet [] k v) (counterKey k)
          (encodeI32 1)) (counterKey k) (encodeI32 2)) (counterKey k) (encodeI32 1)) k)
          (counterKey k)) k = some none ∧
      hsGet (hsClear (hsClear (hsSet (hsSet (hsSet (hsSet [] k v) (counterKey k)
          (encodeI32 1)) (counterKey k) (encodeI32 2)) (counterKey k) (encodeI32 1)) k)
          (counterKey k)) (counterKey k) = none) := by
  have hckk : counterKey k ≠ k := counterKey_ne_self k
  refine ⟨?_, ?_, ?_, ?_⟩
  · intro s h
    simp [dbRemove, hk, h]
  · intro s h
    have hc : get_storage_counter s k = some 1 := counter_present s k 1 h (by omega) (by omega)
    simp [dbRemove, hk, hc, set_storage_counter]
  · intro s c hc1 hc2 h
    have hc : get_storage_counter s k = some c := counter_present s k c h (by omega) (by omega)
    have hne1 : c ≠ 1 := by omega
    have hpos : (0 : Int) < c := by omega
    have hsub : c - 1 ≠ 0 := by omega
    refine ⟨?_, hsGet_hsSet_ne s (counterKey k) k (encodeI32 (c - 1)) hckk⟩
    simp [dbRemove, hk, hc, hne1, hpos, set_storage_counter, hsub]
  · intro v hash hv0 hv1 hvlen hhv
    have hnn : ¬ (v = [] ∨ v = [0]) := by simp [hv0, hv1]
    -- state abbreviations
    set s1 := hsSet (hsSet [] k v) (counterKey k) (encodeI32 1) with hs1
    set s2 := hsSet s1 (counterKey k) (encodeI32 2) with hs2
    set s3 := hsSet s2 (counterKey k) (encodeI32 1) with hs3
    set s4 := hsClear (hsClear s3 k) (counterKey k) with hs4
    -- counter reads along the scenario
    have hc0 : get_storage_counter ([] : Hst) k = some 0 := counter_absent [] k rfl
    have hck1 : hsGet s1 (counterKey k) = some (encodeI32 1) := hsGet_hsSet_self _ _ _
    have hc1 : get_storage_counter s1 k = some 1 :=
      counter_present s1 k 1 hck1 (by omega) (by omega)
    have hck2 : hsGet s2 (counterKey k) = some (encodeI32 2) := hsGet_hsSet_self _ _ _
    have hc2 : get_storage_counter s2 k = some 2 :=
      counter_present s2 k 2 hck2 (by omega) (by omega)
    have hck3 : hsGet s3 (counterKey k) = some (encodeI32 1) := hsGet_hsSet_self _ _ _
    have hc3 : get_storage_counter s3 k = some 1 :=
      counter_present s3 k 1 hck3 (by omega) (by omega)
    -- the value entry as seen through the counter-key writes
    have hv3 : hsGet s3 k = some v := by
      rw [hs3, hsGet_hsSet_ne _ _ _ _ hckk, hs2, hsGet_hsSet_ne _ _ _ _ hckk, hs1,
        hsGet_hsSet_ne _ _ _ _ hckk, hsGet_hsSet_self]
    have hv4 : hsGet s4 k = none := by
      rw [hs4, hsGet_hsClear_ne _ _ _ hckk, hsGet_hsClear_self]
    have hck4 : hsGet s4 (counterKey k) = none := hsGet_hsClear_self _ _
    refine ⟨?_, ?_, ?_, ?_, hc3, ?_, ?_, hck4⟩
    · simp only [dbInsert, if_neg hnn, hhv]
      simp [internal_emplace, hc0, i32wrap, set_storage_counter, hs1]
    · simp only [dbInsert, if_neg hnn, hhv]
      have hw2 : i32wrap 2 = 2 := by decide
      simp [internal_emplace, hc1, hw2, set_storage_counter, hs2]
    · have hw : (2 : Int) - 1 = 1 := by decide
      simp [dbRemove, hk, hc2, set_storage_counter, hw, hs3]
    · simp [dbGet, hostGet, hk, hv3, Nat.not_le.mpr hvlen]
    · simp [dbRemove, hk, hc3, set_storage_counter, hs4]
    · simp [dbGet, hostGet, hk, hv4]

/-- Witness for C1: the first insert of the scenario at the value `[7]`
under the stand-in hash. -/
theorem c1_remove_refcount_protocol_witness :
    dbInsert constHash [] [7] =
      some (List.replicate 32 9, hsSet (hsSet [] (List.replicate 32 9) [7])
        (counterKey (List.replicate 32 9)) (encodeI32 1)) :=
  ((c1_remove_refcount_protocol (List.replicate 32 9) (by decide)).2.2.2 [7] constHash
    (by decide) (by decide) (by decide) rfl).1

/-! ## Claim C7 -/

/-- C7: a stored value is written to the host at most once, on the
counter transition `0 → 1`, and is immutable thereafter: an emplace that
finds a positive counter performs no value write (the value entry is
untouched, only the persisted counter changes), an emplace that finds
counter `0` writes the value and sets the counter to `1`, and after `n`
repeated emplaces of the same content from a counter-absent store the
value entry holds the single written copy and the counter holds `n`. -/
theorem c7_value_written_once :
    (∀ (s : Hst) (k v : Bytes) (c : Int), 0 < c → c < 2147483648 →
      get_storage_counter s k = some c →
      internal_emplace s k v = some (set_storage_counter s k (i32wrap (c + 1))) ∧
      hsGet (set_storage_counter s k (i32wrap (c + 1))) k = hsGet s k) ∧
    (∀ (s : Hst) (k v : Bytes), get_storage_counter s k = some 0 →
      internal_emplace s k v = some (set_storage_counter (hsSet s k v) k 1)) ∧
    (∀ (k v : Bytes) (s0 : Hst) (n : Nat), hsGet s0 (counterKey k) = none → 1 ≤ n →
      (n : Int) < 2147483648 →
      ∃ sn, emplaceN k v n s0 = some sn ∧ hsGet sn k = some v ∧
        hsGet sn (counterKey k) = some (encodeI32 (n : Int))) := by
  refine ⟨?_, ?_, ?_⟩
  · intro s k v c hc0 hc1 h
    have hne1 : i32wrap (c + 1) ≠ 1 := i32wrap_add_one_ne_one c hc0 hc1
    constructor
    · simp [internal_emplace, h, hne1]
    · unfold set_storage_counter
      by_cases hz : i32wrap (c + 1) = 0
      · simp [hz, hsGet_hsClear_ne _ _ _ (counterKey_ne_self k)]
      · simp [hz, hsGet_hsSet_ne _ _ _ _ (counterKey_ne_self k)]
  · intro s k v h
    have hw : i32wrap 1 = 1 := by decide
    simp [internal_emplace, h, hw]
  · intro k v s0 n h hn1
    induction n, hn1 using Nat.le_induction with
    | base =>
      intro _
      have hc0 : get_storage_counter s0 k = some 0 := counter_absent s0 k h
      have hw : i32wrap 1 = 1 := by decide
      refine ⟨hsSet (hsSet s0 k v) (counterKey k) (encodeI32 1), ?_, ?_, ?_⟩
      · simp [emplaceN, internal_emplace, hc0, hw, set_storage_counter]
      · rw [hsGet_hsSet_ne _ _ _ _ (counterKey_ne_self k), hsGet_hsSet_self]
      · rw [hsGet_hsSet_self]
        norm_num
    | succ n hn ih =>
      intro hn2
      have hn2' : (n : Int) < 2147483648 := by push_cast at hn2 ⊢; omega
      obtain ⟨sn, he, hvk, hck⟩ := ih hn2'
      have hc : get_storage_counter sn k = some (n : Int) :=
        counter_present sn k (n : Int) hck (by positivity) hn2'
      have hwrap : i32wrap ((n : Int) + 1) = (n : Int) + 1 :=
        i32wrap_eq _ (by positivity) (by push_cast at hn2; omega)
      have hne1 : (n : Int) + 1 ≠ 1 := by
        have : (1 : Int) ≤ (n : Int) := by exact_mod_cast hn
        omega
      have hne0 : (n : Int) + 1 ≠ 0 := by positivity
      refine ⟨hsSet sn (counterKey k) (encodeI32 ((n : Int) + 1)), ?_, ?_, ?_⟩
      · simp [emplaceN, he, internal_emplace, hc, hwrap, hne1, set_storage_counter, hne0]
      · rw [hsGet_hsSet_ne _ _ _ _ (counterKey_ne_self k)]
        exact hvk
      · rw [hsGet_hsSet_self]
        have hcast : ((n + 1 : Nat) : Int) = (n : Int) + 1 := by push_cast; ring
        rw [hcast]

/-- Witness for C7: an emplace that finds counter `0` performs the single
value write and sets the counter to `1`. -/
theorem c7_value_written_once_witness :
    internal_emplace [] (List.replicate 32 9) [7] =
      some (set_storage_counter (hsSet [] (List.replicate 32 9) [7]) (List.replicate 32 9) 1) :=
  c7_value_written_once.2.1 [] (List.replicate 32 9) [7] (by decide)

/-! ## Claim C3 (corrected) -/

/-- Shared helper: `fromLE4` inverts `toLE4` below `2^32`. -/
theorem fromLE4_toLE4 (n : Nat) (h : n < 4294967296) : fromLE4 (toLE4 n) = n := by
  simp only [fromLE4, toLE4, List.getD, List.get?_cons_zero, List.get?_cons_succ,
    Option.getD_some]
  omega

/-- Shared helper: `extract_input` on a well-formed length-prefixed chunk
returns the chunk and the remainder. -/
theorem extract_input_spec (key r : Bytes) (h : key.length < 4294967296) :
    extract_input (toLE4 key.length ++ (key ++ r)) = some (key, r) := by
  have hlen4 : (toLE4 key.length).length = 4 := rfl
  have htake : (toLE4 key.length ++ (key ++ r)).take 4 = toLE4 key.length := by
    rw [show (4 : Nat) = (toLE4 key.length).length from rfl, List.take_left]
  have hdrop : (toLE4 key.length ++ (key ++ r)).drop 4 = key ++ r := by
    rw [show (4 : Nat) = (toLE4 key.length).length from rfl, List.drop_left]
  have hfrom : fromLE4 (toLE4 key.length) = key.length := fromLE4_toLE4 key.length h
  have hlen : ¬ (toLE4 key.length ++ (key ++ r)).length < 4 := by
    simp [List.length_append, hlen4]
  have hrest : ¬ (key ++ r).length < key.length := by
    simp [List.length_append]
  simp only [extract_input, hlen, if_false, htake, hdrop, hfrom, hrest,
    List.take_left, List.drop_left, if_neg]

/-- C3, counterexample to the claim as stated: the input framed as
`u32-LE key-length ‖ key ‖ value` (value filling the remainder) for
`key = [97]`, `value = [98]` makes the insert parser abort, because the
code extracts a second length-prefixed chunk for the value. -/
theorem c3_insert_framing_counterexample :
    claimFraming [97] [98] = [1, 0, 0, 0, 97, 98] ∧
    trieInsertParse (claimFraming [97] [98]) = none := by
  constructor <;> rfl

/-- C3 as amended: dispatch code 0 (insert) accepts input framed as a
`u32`-LE key length, the key bytes, a `u32`-LE value length, and the
value bytes, with the value chunk consuming the remainder exactly; every
input framed this way parses into the key/value pair without a fatal
error. -/
theorem c3_insert_framing (key value : Bytes) (hk : key.length < 4294967296)
    (hv : value.length < 4294967296) :
    trieInsertParse (codeFraming key value) = some (key, value) := by
  have h1 : extract_input (codeFraming key value) =
      some (key, toLE4 value.length ++ value) := by
    have := extract_input_spec key (toLE4 value.length ++ value) hk
    rw [codeFraming, List.append_assoc]
    exact this
  have h2 : extract_input (toLE4 value.length ++ value) = some (value, []) := by
    have := extract_input_spec value [] hv
    rw [List.append_nil] at this
    exact this
  simp [trieInsertParse, h1, h2]

/-- Witness for C3 at `key = [97]`, `value = [98]`. -/
theorem c3_insert_framing_witness :
    trieInsertParse (codeFraming [97] [98]) = some ([97], [98]) :=
  c3_insert_framing [97] [98] (by decide) (by decide)

/-! ## Claim C2 (corrected) -/

/-- C2, counterexample to the claim as stated: a stored trie whose root
is an Extension node with an (inline, well-formed) child makes the
decoder abort instead of producing a node list. -/
theorem c2_extension_counterexample :
    decodeTrie [(List.replicate 32 1, .extension [1] (.inline .empty))]
      (List.replicate 32 1) 10 = none := rfl

/-- C2 as amended: an Extension node's child is never resolved: the
child-decoding helper aborts whenever it is invoked without a branch
nibble (`abort!("extension node not supported")`), and the Extension arm
of the decoder always invokes it that way, so decoding any Extension
node with any child (hash or inline) is fatal for every store, fuel and
decoded-node list. -/
theorem c2_extension_not_supported (db : List (Bytes × PlanTree)) (fuel : Nat)
    (parent : TrieNodeM) (child : HandleT) (nodes : List TrieNodeM)
    (nib : List Nat) (nodeId : Option Bytes) :
    decodeChild db fuel parent child none nodes = none ∧
    decodeRec db fuel (.extension nib child) nodeId nodes = none := by
  constructor
  · cases fuel with
    | zero => rfl
    | succ fuel => rfl
  · cases fuel with
    | zero => rfl
    | succ fuel =>
      have h : decodeChild db fuel ⟨nodeId, nibOpt nib, none, Children.new⟩ child none nodes =
          none := by
        cases fuel with
        | zero => rfl
        | succ fuel => rfl
      simp [decodeRec, h]

/-! ## Bit arithmetic for the branch-index iterator -/

theorem ctzGo_odd (f m : Nat) (h : m % 2 = 1) : ctzGo (f + 1) m = 0 := by
  simp [ctzGo, h]

theorem ctzGo_even (f m : Nat) (h : m % 2 = 0) :
    ctzGo (f + 1) m = ctzGo f (m / 2) + 1 := by
  simp [ctzGo, h]

theorem ctzGo_two_pow (f k : Nat) (h : k < f) : ctzGo f (2 ^ k) = k := by
  induction f generalizing k with
  | zero => omega
  | succ f ih =>
    cases k with
    | zero => simp [ctzGo]
    | succ k =>
      have hp : (2 : Nat) ^ (k + 1) = 2 * 2 ^ k := by ring
      have he : 2 ^ (k + 1) % 2 = 0 := by omega
      rw [ctzGo_even f _ he, show 2 ^ (k + 1) / 2 = 2 ^ k by omega, ih k (by omega)]

theorem ctz_two_pow (k : Nat) (h : k < 16) : ctz (2 ^ k) = k := ctzGo_two_pow 16 k h

/-- Bit-level decomposition of `lor` on `2*a + r` forms. -/
theorem lor_two_mul_add (a b ra rb : Nat) (hra : ra < 2) (hrb : rb < 2) :
    (2 * a + ra) ||| (2 * b + rb) = 2 * (a ||| b) + (ra ||| rb) := by
  interval_cases ra <;> interval_cases rb
  · simpa [Nat.bit, Bool.or] using Nat.lor_bit false a false b
  · simpa [Nat.bit, Bool.or] using Nat.lor_bit false a true b
  · simpa [Nat.bit, Bool.or] using Nat.lor_bit true a false b
  · simpa [Nat.bit, Bool.or] using Nat.lor_bit true a true b

/-- Bit-level decomposition of `land` on doubled values. -/
theorem land_two_mul (a b : Nat) : (2 * a) &&& (2 * b) = 2 * (a &&& b) := by
  simpa [Nat.bit, Bool.and] using Nat.land_bit false a false b

/-- A sum `2^k + x` with `x < 2^k` is a disjoint `lor`. -/
theorem two_pow_add_eq_lor (k : Nat) : ∀ x, x < 2 ^ k → 2 ^ k + x = 2 ^ k ||| x := by
  induction k with
  | zero =>
    intro x hx
    have hx0 : x = 0 := by omega
    subst hx0
    decide
  | succ k ih =>
    intro x hx
    have hp : (2 : Nat) ^ (k + 1) = 2 * 2 ^ k := by ring
    have hx2 : x / 2 < 2 ^ k := by omega
    have h1 : (2 : Nat) ^ (k + 1) = 2 * 2 ^ k + 0 := by omega
    have h2 : x = 2 * (x / 2) + x % 2 := by omega
    conv_lhs => rw [h2]
    conv_rhs => rw [h1, h2]
    rw [lor_two_mul_add _ _ _ _ (by omega) (by omega), ← ih (x / 2) hx2,
      show (0 : Nat) ||| x % 2 = x % 2 by simp]
    omega

/-- Distribution of `land` over `lor` (right). -/
theorem land_lor_right (a b c : Nat) : (a ||| b) &&& c = (a &&& c) ||| (b &&& c) := by
  apply Nat.eq_of_testBit_eq
  intro j
  simp [Nat.testBit_land, Nat.testBit_lor, Bool.and_or_distrib_right]

/-- Distribution of `land` over `lor` (left). -/
theorem land_lor_left (a b c : Nat) : c &&& (a ||| b) = (c &&& a) ||| (c &&& b) := by
  apply Nat.eq_of_testBit_eq
  intro j
  simp [Nat.testBit_land, Nat.testBit_lor, Bool.and_or_distrib_left]

/-- The two's-complement lowest-set-bit identity: for `0 < m < 2^k`,
`(2^k - m) &&& m` isolates the lowest set bit of `m`. -/
theorem lowbit_core (m : Nat) : 0 < m → ∀ k, m < 2 ^ k →
    (2 ^ k - m) &&& m = 2 ^ ctzGo k m := by
  induction m using Nat.strong_induction_on with
  | _ m ihm =>
    intro hm
    rcases Nat.mod_two_eq_zero_or_one m with hpar | hpar
    · -- m even: halve and recurse
      intro k hk
      obtain ⟨a, rfl⟩ : ∃ a, m = 2 * a := ⟨m / 2, by omega⟩
      cases k with
      | zero =>
        exfalso
        omega
      | succ k =>
        have hp : (2 : Nat) ^ (k + 1) = 2 * 2 ^ k := by ring
        have heq : 2 ^ (k + 1) - 2 * a = 2 * (2 ^ k - a) := by omega
        rw [ctzGo_even k _ (by omega), show 2 * a / 2 = a by omega, heq, land_two_mul,
          ihm a (by omega) (by omega) k (by omega), pow_succ]
        ring
    · -- m odd: induction on the width
      intro k
      induction k with
      | zero =>
        intro hk
        exfalso
        omega
      | succ k ihk =>
        intro hk
        rw [ctzGo_odd k m hpar, pow_zero]
        have hp : (2 : Nat) ^ (k + 1) = 2 * 2 ^ k := by ring
        by_cases hlt : m < 2 ^ k
        · -- m in the lower half: strip the top bit
          have hx : 2 ^ k - m < 2 ^ k := by omega
          have heq : 2 ^ (k + 1) - m = 2 ^ k + (2 ^ k - m) := by omega
          rw [heq, two_pow_add_eq_lor k _ hx, land_lor_right]
          have h1 : 2 ^ k &&& m = 0 := by
            rw [Nat.two_pow_and, Nat.testBit_lt_two_pow hlt]
            simp
          have h2 : (2 ^ k - m) &&& m = 1 := by
            have hstep := ihk hlt
            cases k with
            | zero => omega
            | succ k' =>
              rw [ctzGo_odd k' m hpar, pow_zero] at hstep
              exact hstep
          rw [h1, h2]
          decide
        · -- m in the upper half: strip the top bit of m
          obtain ⟨m', rfl⟩ : ∃ m', m = 2 ^ k + m' := ⟨m - 2 ^ k, by omega⟩
          by_cases hz : m' = 0
          · -- m = 2^k and m odd: k = 0, m = 1
            subst hz
            cases k with
            | zero => decide
            | succ k' =>
              exfalso
              have hp' : (2 : Nat) ^ (k' + 1) = 2 * 2 ^ k' := by ring
              omega
          · have hm'pos : 0 < m' := by omega
            have hm'lt : m' < 2 ^ k := by omega
            have hkpos : k ≠ 0 := by
              intro h0
              subst h0
              omega
            have h2even : (2 : Nat) ^ k % 2 = 0 := by
              obtain ⟨k', rfl⟩ := Nat.exists_eq_succ_of_ne_zero hkpos
              have hpk : (2 : Nat) ^ (k' + 1) = 2 * 2 ^ k' := by ring
              omega
            have hm'odd : m' % 2 = 1 := by omega
            have heq : 2 ^ (k + 1) - (2 ^ k + m') = 2 ^ k - m' := by omega
            rw [heq]
            conv_lhs => rw [two_pow_add_eq_lor k m' hm'lt]
            rw [land_lor_left]
            have h1 : (2 ^ k - m') &&& 2 ^ k = 0 := by
              rw [Nat.and_two_pow, Nat.testBit_lt_two_pow (show 2 ^ k - m' < 2 ^ k by omega)]
              simp
            have h2 : (2 ^ k - m') &&& m' = 1 := by
              have hrec := ihm m' (by omega) hm'pos k hm'lt
              cases k with
              | zero => omega
              | succ k' =>
                rw [ctzGo_odd k' _ hm'odd, pow_zero] at hrec
                exact hrec
            rw [h1, h2]
            decide

theorem lowBit16_eq (m : Nat) (h0 : 0 < m) (h1 : m < 65536) : lowBit16 m = 2 ^ ctz m := by
  have h2 : (2 : Nat) ^ 16 = 65536 := by norm_num
  have hmod : (65536 - m) % 65536 = 65536 - m := Nat.mod_eq_of_lt (by omega)
  have hc := lowbit_core m h0 16 (by rw [h2]; exact h1)
  unfold lowBit16 ctz
  rw [hmod]
  rw [h2] at hc
  exact hc

theorem ctzGo_spec (f : Nat) : ∀ m, 0 < m → m < 2 ^ f →
    m.testBit (ctzGo f m) = true ∧ ∀ j, j < ctzGo f m → m.testBit j = false := by
  induction f with
  | zero =>
    intro m h0 h1
    exfalso
    omega
  | succ f ih =>
    intro m h0 h1
    rcases Nat.mod_two_eq_zero_or_one m with hpar | hpar
    · obtain ⟨a, rfl⟩ : ∃ a, m = 2 * a := ⟨m / 2, by omega⟩
      have hp : (2 : Nat) ^ (f + 1) = 2 * 2 ^ f := by ring
      obtain ⟨iha, ihb⟩ := ih a (by omega) (by omega)
      have hrw : ctzGo (f + 1) (2 * a) = ctzGo f a + 1 := by
        rw [ctzGo_even f _ (by omega), show 2 * a / 2 = a by omega]
      rw [hrw]
      constructor
      · rw [Nat.testBit_succ, show 2 * a / 2 = a by omega]
        exact iha
      · intro j hj
        cases j with
        | zero =>
          have h2a : 2 * a % 2 = 0 := by omega
          rw [Nat.testBit_zero]
          simp [h2a]
        | succ j =>
          rw [Nat.testBit_succ, show 2 * a / 2 = a by omega]
          exact ihb j (by omega)
    · rw [ctzGo_odd f m hpar]
      constructor
      · rw [Nat.testBit_zero]
        simp [hpar]
      · intro j hj
        omega

theorem ctz_spec (m : Nat) (h0 : 0 < m) (h1 : m < 65536) :
    m.testBit (ctz m) = true ∧ (∀ j, j < ctz m → m.testBit j = false) ∧ ctz m < 16 := by
  have h2 : (2 : Nat) ^ 16 = 65536 := by norm_num
  obtain ⟨ha, hb⟩ := ctzGo_spec 16 m h0 (by rw [h2]; exact h1)
  have ha' : m.testBit (ctz m) = true := ha
  have hb' : ∀ j, j < ctz m → m.testBit j = false := hb
  refine ⟨ha', hb', ?_⟩
  by_contra hge
  have hle : (2 : Nat) ^ 16 ≤ 2 ^ ctz m := Nat.pow_le_pow_right (by omega) (by omega)
  have hge2 := Nat.testBit_implies_ge ha'
  omega

theorem xor_two_pow_testBit (m i j : Nat) :
    (m ^^^ 2 ^ i).testBit j = if j = i then ! m.testBit j else m.testBit j := by
  by_cases h : j = i
  · subst h
    simp [Nat.testBit_xor, Nat.testBit_two_pow]
  · rw [if_neg h]
    simp [Nat.testBit_xor, Nat.testBit_two_pow_of_ne (fun he => h he.symm)]

theorem xor_lowbit_lt (m : Nat) (h : m.testBit (ctz m) = true) : m ^^^ 2 ^ ctz m < m := by
  apply Nat.lt_of_testBit (ctz m)
  · rw [xor_two_pow_testBit, if_pos rfl, h]
    rfl
  · exact h
  · intro j hj
    rw [xor_two_pow_testBit, if_neg (by omega)]

theorem filter_range_step (i : Nat) (p q : Nat → Bool) :
    ∀ n, i < n → (∀ j, j < i → p j = false) → p i = true → (∀ j, j ≤ i → q j = false) →
    (∀ j, i < j → q j = p j) →
    (List.range n).filter p = i :: (List.range n).filter q := by
  intro n
  induction n with
  | zero => omega
  | succ n ih =>
    intro hin hplo hpi hqlo hqhi
    rw [List.range_succ, List.filter_append, List.filter_append]
    by_cases hcase : i < n
    · rw [ih hcase hplo hpi hqlo hqhi]
      have hpq : p n = q n := (hqhi n hcase).symm
      rw [List.filter_singleton, List.filter_singleton, hpq]
      simp
    · have hin' : i = n := by omega
      subst hin'
      have hfp : (List.range i).filter p = [] := by
        rw [List.filter_eq_nil_iff]
        intro a ha
        rw [List.mem_range] at ha
        simp [hplo a ha]
      have hfq : (List.range i).filter q = [] := by
        rw [List.filter_eq_nil_iff]
        intro a ha
        rw [List.mem_range] at ha
        simp [hqlo a (by omega)]
      have hq1 : List.filter q [i] = [] := by
        simp [hqlo i (by omega)]
      simp [hfp, hfq, hq1, hpi]

theorem maskBits_cons (m : Nat) (h0 : 0 < m) (h1 : m < 65536) :
    maskBits m = ctz m :: maskBits (m ^^^ 2 ^ ctz m) := by
  obtain ⟨ha, hb, hc⟩ := ctz_spec m h0 h1
  apply filter_range_step (ctz m) _ _ 16 hc hb ha
  · intro j hj
    rw [xor_two_pow_testBit]
    by_cases he : j = ctz m
    · simp [he, ha]
    · rw [if_neg he]
      exact hb j (by omega)
  · intro j hj
    rw [xor_two_pow_testBit, if_neg (by omega)]

theorem maskBits_zero : maskBits 0 = [] := by decide

theorem maskBits_le_16 (m : Nat) : (maskBits m).length ≤ 16 := by
  have h := List.length_filter_le (fun i => m.testBit i) (List.range 16)
  simpa [maskBits] using h

theorem iterGo_spec : ∀ (fuel mask : Nat) (ch : List Nat), mask < 65536 →
    (maskBits mask).length ≤ fuel →
    (∀ i, i ∈ maskBits mask → ch.getD i 0 ≠ USIZE_MAX) →
    iterGo ch fuel mask = some ((maskBits mask).map (fun i => (ch.getD i 0, i))) := by
  intro fuel
  induction fuel with
  | zero =>
    intro mask ch h65 hlen hslots
    cases mask with
    | zero => rw [maskBits_zero]; rfl
    | succ m =>
      exfalso
      rw [maskBits_cons (m + 1) (by omega) h65] at hlen
      simp at hlen
  | succ fuel ih =>
    intro mask ch h65 hlen hslots
    cases mask with
    | zero => rw [maskBits_zero]; rfl
    | succ m =>
      have hpos : 0 < m + 1 := by omega
      obtain ⟨hbit, hlow, hlt16⟩ := ctz_spec (m + 1) hpos h65
      have hlb : lowBit16 (m + 1) = 2 ^ ctz (m + 1) := lowBit16_eq (m + 1) hpos h65
      have hoff : ctz (lowBit16 (m + 1)) = ctz (m + 1) := by
        rw [hlb]
        exact ctz_two_pow _ hlt16
      have hconsX : maskBits (m + 1) =
          ctz (m + 1) :: maskBits ((m + 1) ^^^ lowBit16 (m + 1)) := by
        rw [hlb]
        exact maskBits_cons (m + 1) hpos h65
      have hxlt : (m + 1) ^^^ lowBit16 (m + 1) < m + 1 := by
        rw [hlb]
        exact xor_lowbit_lt (m + 1) hbit
      have hmem : ctz (m + 1) ∈ maskBits (m + 1) := by
        rw [hconsX]
        exact List.mem_cons_self _ _
      have hslot := hslots _ hmem
      have hlen' : (maskBits ((m + 1) ^^^ lowBit16 (m + 1))).length ≤ fuel := by
        rw [hconsX] at hlen
        simp only [List.length_cons] at hlen
        omega
      have hslots' : ∀ j, j ∈ maskBits ((m + 1) ^^^ lowBit16 (m + 1)) →
          ch.getD j 0 ≠ USIZE_MAX := by
        intro j hj
        exact hslots j (by rw [hconsX]; exact List.mem_cons_of_mem _ hj)
      have hrec := ih ((m + 1) ^^^ lowBit16 (m + 1)) ch (by omega) hlen' hslots'
      rw [hconsX, List.map_cons]
      simp only [iterGo]
      rw [hoff, if_neg hslot, hrec]

theorem iterGo_abort : ∀ (fuel mask : Nat) (ch : List Nat), mask < 65536 →
    (maskBits mask).length ≤ fuel →
    (∃ i, i ∈ maskBits mask ∧ ch.getD i 0 = USIZE_MAX) →
    iterGo ch fuel mask = none := by
  intro fuel
  induction fuel with
  | zero =>
    intro mask ch h65 hlen hw
    cases mask with
    | zero =>
      obtain ⟨i, hi, _⟩ := hw
      rw [maskBits_zero] at hi
      simp at hi
    | succ m =>
      exfalso
      rw [maskBits_cons (m + 1) (by omega) h65] at hlen
      simp at hlen
  | succ fuel ih =>
    intro mask ch h65 hlen hw
    cases mask with
    | zero =>
      obtain ⟨i, hi, _⟩ := hw
      rw [maskBits_zero] at hi
      simp at hi
    | succ m =>
      have hpos : 0 < m + 1 := by omega
      obtain ⟨hbit, hlow, hlt16⟩ := ctz_spec (m + 1) hpos h65
      have hlb : lowBit16 (m + 1) = 2 ^ ctz (m + 1) := lowBit16_eq (m + 1) hpos h65
      have hoff : ctz (lowBit16 (m + 1)) = ctz (m + 1) := by
        rw [hlb]
        exact ctz_two_pow _ hlt16
      have hconsX : maskBits (m + 1) =
          ctz (m + 1) :: maskBits ((m + 1) ^^^ lowBit16 (m + 1)) := by
        rw [hlb]
        exact maskBits_cons (m + 1) hpos h65
      have hxlt : (m + 1) ^^^ lowBit16 (m + 1) < m + 1 := by
        rw [hlb]
        exact xor_lowbit_lt (m + 1) hbit
      have hlen' : (maskBits ((m + 1) ^^^ lowBit16 (m + 1))).length ≤ fuel := by
        rw [hconsX] at hlen
        simp only [List.length_cons] at hlen
        omega
      simp only [iterGo]
      rw [hoff]
      by_cases hcase : ch.getD (ctz (m + 1)) 0 = USIZE_MAX
      · rw [if_pos hcase]
      · rw [if_neg hcase]
        obtain ⟨i, hi, hival⟩ := hw
        have hine : i ≠ ctz (m + 1) := by
          intro he
          subst he
          exact hcase hival
        have hi' : i ∈ maskBits ((m + 1) ^^^ lowBit16 (m + 1)) := by
          rw [hconsX] at hi
          rcases List.mem_cons.mp hi with he | ht
          · exact absurd he hine
          · exact ht
        rw [ih ((m + 1) ^^^ lowBit16 (m + 1)) ch (by omega) hlen' ⟨i, hi', hival⟩]

theorem lor_lt_two_pow {x y n : Nat} (hx : x < 2 ^ n) (hy : y < 2 ^ n) : x ||| y < 2 ^ n :=
  Nat.bitwise_lt hx hy

theorem push_flag_iff (c : Children) (n : Nat) (hn : n < 16) :
    2 ^ (n % 16) &&& c.mask ≠ 0 ↔ c.mask.testBit n = true := by
  rw [Nat.mod_eq_of_lt hn, Nat.two_pow_and]
  cases h : c.mask.testBit n <;> simp [h]

theorem push_eq_some (c : Children) (r n : Nat) (c' : Children)
    (h : c.push r n = some c') :
    n < 16 ∧ c.mask.testBit n = false ∧ c' = ⟨c.mask ||| 2 ^ n, c.children.set n r⟩ := by
  unfold Children.push at h
  by_cases hc : 16 ≤ n ∨ 2 ^ (n % 16) &&& c.mask ≠ 0
  · rw [if_pos hc] at h
    simp at h
  · rw [if_neg hc] at h
    push_neg at hc
    obtain ⟨h16, hflag⟩ := hc
    have hn : n < 16 := by omega
    have hbit : c.mask.testBit n = false := by
      by_contra habs
      have : c.mask.testBit n = true := by
        cases hh : c.mask.testBit n
        · exact absurd hh habs
        · rfl
      exact absurd this (by
        intro ht
        have := (push_flag_iff c n hn).mpr ht
        exact this hflag)
    refine ⟨hn, hbit, ?_⟩
    have := Option.some.inj h
    rw [← this, Nat.mod_eq_of_lt hn]

theorem pushedInv_nil : pushedInv [] Children.new := by
  refine ⟨by decide, by decide, ?_, ?_, by simp, by simp⟩
  · intro i hi
    simp [Children.new, Nat.zero_testBit]
  · intro r i h
    simp at h

theorem pushedInv_push (ps : List (Nat × Nat)) (c : Children) (r n : Nat) (c' : Children)
    (hinv : pushedInv ps c) (hp : c.push r n = some c') :
    pushedInv (ps ++ [(r, n)]) c' := by
  obtain ⟨hm, hl, hbits, hslots, hnd, hrange⟩ := hinv
  obtain ⟨hn16, hbitn, rfl⟩ := push_eq_some c r n c' hp
  have hnotmem : n ∉ ps.map Prod.snd := by
    intro hmem
    rw [← hbits n hn16] at hmem
    rw [hmem] at hbitn
    cases hbitn
  have h216 : (65536 : Nat) = 2 ^ 16 := by norm_num
  refine ⟨?_, ?_, ?_, ?_, ?_, ?_⟩
  · rw [h216]
    exact lor_lt_two_pow (by omega) (Nat.pow_lt_pow_right (by omega) hn16)
  · simp [List.length_set, hl]
  · intro i hi
    rw [Nat.testBit_lor, Nat.testBit_two_pow]
    simp only [List.map_append, List.map_cons, List.map_nil, List.mem_append,
      List.mem_singleton]
    rw [Bool.or_eq_true, decide_eq_true_eq, hbits i hi]
    constructor
    · rintro (hmem | he)
      · exact Or.inl hmem
      · exact Or.inr he.symm
    · rintro (hmem | he)
      · exact Or.inl hmem
      · exact Or.inr he.symm
  · intro r' i hmem
    rcases List.mem_append.mp hmem with hold | hnew
    · have hine : n ≠ i := by
        intro he
        subst he
        exact hnotmem (List.mem_map.mpr ⟨(r', n), hold, rfl⟩)
      rw [List.getD_eq_getElem?_getD, List.getElem?_set_ne hine,
        ← List.getD_eq_getElem?_getD]
      exact hslots r' i hold
    · simp at hnew
      obtain ⟨hr, hn⟩ := hnew
      subst hr
      subst hn
      rw [List.getD_eq_getElem?_getD, List.getElem?_set_self (by omega), Option.getD_some]
  · rw [List.map_append]
    rw [List.nodup_append]
    refine ⟨hnd, by simp, ?_⟩
    intro a ha hb
    simp at hb
    subst hb
    exact hnotmem ha
  · intro i hi
    rw [List.map_append] at hi
    rcases List.mem_append.mp hi with hold | hnew
    · exact hrange i hold
    · simp at hnew
      omega

theorem pushList_inv : ∀ (ps : List (Nat × Nat)) (c : Children) (acc : List (Nat × Nat))
    (c'' : Children), pushedInv acc c → pushList c ps = some c'' →
    pushedInv (acc ++ ps) c'' := by
  intro ps
  induction ps with
  | nil =>
    intro c acc c'' hinv h
    simp only [pushList] at h
    have he : c = c'' := Option.some.inj h
    subst he
    simpa using hinv
  | cons p rest ih =>
    intro c acc c'' hinv h
    simp only [pushList] at h
    cases hp : c.push p.1 p.2 with
    | none =>
      rw [hp] at h
      simp at h
    | some c' =>
      rw [hp] at h
      have hinv' : pushedInv (acc ++ [p]) c' := by
        have := pushedInv_push acc c p.1 p.2 c' hinv hp
        simpa using this
      have hres := ih c' (acc ++ [p]) c'' hinv' h
      simpa [List.append_assoc] using hres

theorem push_none_iff (c : Children) (r n : Nat) :
    c.push r n = none ↔ 16 ≤ n ∨ (n < 16 ∧ c.mask.testBit n = true) := by
  unfold Children.push
  by_cases hc : 16 ≤ n ∨ 2 ^ (n % 16) &&& c.mask ≠ 0
  · rw [if_pos hc]
    simp only [true_iff]
    rcases hc with h16 | hflag
    · exact Or.inl h16
    · by_cases hn : n < 16
      · exact Or.inr ⟨hn, (push_flag_iff c n hn).mp hflag⟩
      · exact Or.inl (by omega)
  · rw [if_neg hc]
    push_neg at hc
    obtain ⟨h16, hflag⟩ := hc
    constructor
    · intro h
      simp at h
    · rintro (ha | ⟨hn, hbit⟩)
      · omega
      · exact absurd ((push_flag_iff c n hn).mpr hbit) (by simp [hflag])

/-- Shared helper: a successfully built branch index iterates to exactly
the pushed pairs in ascending nibble order, provided no pushed reference
is the sentinel. -/
theorem pushAll_iter_sorted (ps : List (Nat × Nat)) (c : Children)
    (hvals : ∀ p, p ∈ ps → p.1 ≠ USIZE_MAX) (hpush : pushAll ps = some c) :
    ∃ out, iterAll c = some out ∧ out.Perm ps ∧
      out.Pairwise (fun a b : Nat × Nat => a.2 < b.2) := by
  have hinv : pushedInv ps c := by
    have := pushList_inv ps Children.new [] c pushedInv_nil hpush
    simpa using this
  obtain ⟨hm, hl, hbits, hslots, hnd, hrange⟩ := hinv
  have hmem_of_bit : ∀ i, i ∈ maskBits c.mask → ∃ p, p ∈ ps ∧ p.2 = i ∧
      c.children.getD i 0 = p.1 := by
    intro i hi
    rw [maskBits, List.mem_filter, List.mem_range] at hi
    obtain ⟨hi16, hbit⟩ := hi
    have := (hbits i hi16).mp hbit
    obtain ⟨p, hp, hpi⟩ := List.mem_map.mp this
    refine ⟨p, hp, hpi, ?_⟩
    have : (p.1, i) ∈ ps := by
      have hpe : p = (p.1, i) := by
        obtain ⟨p1, p2⟩ := p
        simp at hpi
        simp [hpi]
      rw [← hpe]
      exact hp
    exact hslots p.1 i this
  refine ⟨(maskBits c.mask).map (fun i => (c.children.getD i 0, i)), ?_, ?_, ?_⟩
  · apply iterGo_spec 16 c.mask c.children hm (maskBits_le_16 c.mask)
    intro i hi
    obtain ⟨p, hp, _, hslot⟩ := hmem_of_bit i hi
    rw [hslot]
    exact hvals p hp
  · have hpair : ((maskBits c.mask).map (fun i => (c.children.getD i 0, i))).Pairwise
        (fun a b : Nat × Nat => a.2 < b.2) := by
      rw [List.pairwise_map]
      exact (List.pairwise_lt_range 16).filter _
    have hnodup_out : ((maskBits c.mask).map (fun i => (c.children.getD i 0, i))).Nodup :=
      hpair.imp (fun hab => by
        intro he
        rw [he] at hab
        omega)
    have hnodup_ps : ps.Nodup := List.Nodup.of_map Prod.snd hnd
    have hsub1 : (maskBits c.mask).map (fun i => (c.children.getD i 0, i)) ⊆ ps := by
      intro x hx
      obtain ⟨i, hi, hxi⟩ := List.mem_map.mp hx
      obtain ⟨p, hp, hpi, hslot⟩ := hmem_of_bit i hi
      have : x = p := by
        rw [← hxi, hslot]
        obtain ⟨p1, p2⟩ := p
        simp at hpi
        simp [hpi]
      rw [this]
      exact hp
    have hsub2 : ps ⊆ (maskBits c.mask).map (fun i => (c.children.getD i 0, i)) := by
      intro p hp
      have hi16 : p.2 < 16 := hrange p.2 (List.mem_map.mpr ⟨p, hp, rfl⟩)
      have hbit : c.mask.testBit p.2 = true :=
        (hbits p.2 hi16).mpr (List.mem_map.mpr ⟨p, hp, rfl⟩)
      have hmb : p.2 ∈ maskBits c.mask := by
        rw [maskBits, List.mem_filter, List.mem_range]
        exact ⟨hi16, hbit⟩
      have hslot : c.children.getD p.2 0 = p.1 := by
        apply hslots
        obtain ⟨p1, p2⟩ := p
        exact hp
      apply List.mem_map.mpr
      exact ⟨p.2, hmb, by rw [hslot]⟩
    exact List.Subperm.antisymm (List.subperm_of_subset hnodup_out hsub1)
      (List.subperm_of_subset hnodup_ps hsub2)
  · rw [List.pairwise_map]
    exact (List.pairwise_lt_range 16).filter _

/-! ## Claim C8 (corrected) -/

/-- C8, counterexample to the claim as stated: pushing the reference
`usize::MAX` at nibble 0 succeeds, but iteration then aborts instead of
yielding the pushed pair. -/
theorem c8_iter_counterexample :
    pushAll [(4294967295, 0)] = some ⟨1, List.replicate 16 4294967295⟩ ∧
    iterAll ⟨1, List.replicate 16 4294967295⟩ = none := by
  constructor <;> decide

/-- C8 as amended: `push` is fatal exactly when the nibble is 16 or more
or the nibble's presence bit is already set; and after pushing any set of
distinct nibbles with references other than the `usize::MAX` sentinel,
iteration yields exactly those (reference, nibble) pairs in ascending
nibble order — in particular pushing nibbles {3,0,15,7} yields them in
order 0,3,7,15. -/
theorem c8_branch_index (ps : List (Nat × Nat)) (c : Children)
    (hvals : ∀ p, p ∈ ps → p.1 ≠ USIZE_MAX) (hpush : pushAll ps = some c) :
    (∀ (c0 : Children) (r n : Nat),
      c0.push r n = none ↔ 16 ≤ n ∨ (n < 16 ∧ c0.mask.testBit n = true)) ∧
    (∃ out, iterAll c = some out ∧ out.Perm ps ∧
      out.Pairwise (fun a b : Nat × Nat => a.2 < b.2)) ∧
    (pushAll [(103, 3), (100, 0), (115, 15), (107, 7)] =
      some ⟨32905, [100, 4294967295, 4294967295, 103, 4294967295, 4294967295, 4294967295,
        107, 4294967295, 4294967295, 4294967295, 4294967295, 4294967295, 4294967295,
        4294967295, 115]⟩ ∧
     iterAll ⟨32905, [100, 4294967295, 4294967295, 103, 4294967295, 4294967295, 4294967295,
        107, 4294967295, 4294967295, 4294967295, 4294967295, 4294967295, 4294967295,
        4294967295, 115]⟩ = some [(100, 0), (103, 3), (107, 7), (115, 15)]) := by
  refine ⟨push_none_iff, pushAll_iter_sorted ps c hvals hpush, by decide, by decide⟩

/-- Witness for C8: the concrete `{3,0,15,7}` ordering, via the theorem
applied to that push sequence. -/
theorem c8_branch_index_witness :
    pushAll [(103, 3), (100, 0), (115, 15), (107, 7)] =
      some ⟨32905, [100, 4294967295, 4294967295, 103, 4294967295, 4294967295, 4294967295,
        107, 4294967295, 4294967295, 4294967295, 4294967295, 4294967295, 4294967295,
        4294967295, 115]⟩ :=
  (c8_branch_index [(103, 3), (100, 0), (115, 15), (107, 7)]
    ⟨32905, [100, 4294967295, 4294967295, 103, 4294967295, 4294967295, 4294967295,
      107, 4294967295, 4294967295, 4294967295, 4294967295, 4294967295, 4294967295,
      4294967295, 115]⟩ (by decide) (by decide)).2.2.1

/-! ## Claim C10 -/

/-- C10: the branch index accepts `usize::MAX` as a pushed reference
(witnessed by the first conjunct and by the discharged hypotheses), but
`usize::MAX` is also the internal empty-slot sentinel, so iteration over
any index holding a pushed `usize::MAX` reference aborts fatally. -/
theorem c10_sentinel_abort (ps : List (Nat × Nat)) (c : Children) (r i : Nat)
    (hpush : pushAll ps = some c) (hmem : (r, i) ∈ ps) (hr : r = USIZE_MAX) :
    Children.new.push USIZE_MAX 0 = some ⟨1, List.replicate 16 USIZE_MAX⟩ ∧
    iterAll c = none := by
  refine ⟨by decide, ?_⟩
  have hinv : pushedInv ps c := by
    have := pushList_inv ps Children.new [] c pushedInv_nil hpush
    simpa using this
  obtain ⟨hm, hl, hbits, hslots, hnd, hrange⟩ := hinv
  have hi16 : i < 16 := hrange i (List.mem_map.mpr ⟨(r, i), hmem, rfl⟩)
  have hbit : c.mask.testBit i = true :=
    (hbits i hi16).mpr (List.mem_map.mpr ⟨(r, i), hmem, rfl⟩)
  have hslot : c.children.getD i 0 = USIZE_MAX := by
    rw [hslots r i hmem, hr]
  apply iterGo_abort 16 c.mask c.children hm (maskBits_le_16 c.mask)
  refine ⟨i, ?_, hslot⟩
  rw [maskBits, List.mem_filter, List.mem_range]
  exact ⟨hi16, hbit⟩

/-- Witness for C10 at the single push of `usize::MAX` on nibble 0. -/
theorem c10_sentinel_abort_witness :
    iterAll ⟨1, List.replicate 16 4294967295⟩ = none :=
  (c10_sentinel_abort [(4294967295, 0)] ⟨1, List.replicate 16 4294967295⟩
    4294967295 0 (by decide) (by decide) rfl).2

/-! ## Bump allocator arithmetic -/

theorem align_ptr_eq (next k : Nat) (hk : k ≤ 16) (hb : next + 2 ^ k ≤ U32_LIMIT) :
    align_ptr next (2 ^ k) = ((next + 2 ^ k - 1) / 2 ^ k) * 2 ^ k := by
  have hb' : next + 2 ^ k ≤ 4294967296 := hb
  have hkpos : 0 < (2 : Nat) ^ k := Nat.pos_pow_of_pos k (by omega)
  have h232 : (2 : Nat) ^ 32 = 4294967296 := by norm_num
  have hx32 : next + 2 ^ k - 1 < 2 ^ 32 := by omega
  show (next + 2 ^ k - 1) % 4294967296 &&& (4294967296 - 2 ^ k) = _
  rw [← h232, Nat.mod_eq_of_lt hx32]
  have hM : (2 : Nat) ^ 32 - 2 ^ k = (2 ^ (32 - k) - 1) * 2 ^ k := by
    have hsplit : (2 : Nat) ^ 32 = 2 ^ (32 - k) * 2 ^ k := by
      rw [← pow_add]
      congr 1
      omega
    rw [hsplit, Nat.sub_mul, one_mul]
  rw [hM, ← Nat.shiftLeft_eq, ← Nat.shiftRight_eq_div_pow, ← Nat.shiftLeft_eq]
  apply Nat.eq_of_testBit_eq
  intro t
  rw [Nat.testBit_land, Nat.testBit_shiftLeft, Nat.testBit_shiftLeft,
    Nat.testBit_shiftRight, Nat.testBit_two_pow_sub_one]
  by_cases htk : k ≤ t
  · by_cases ht32 : t < 32
    · have htkk : t - k < 32 - k := by omega
      have hkt : k + (t - k) = t := by omega
      simp [htk, htkk, hkt]
    · have h1 : ¬ (t - k < 32 - k) := by omega
      have h2 : (next + 2 ^ k - 1).testBit t = false :=
        Nat.testBit_lt_two_pow
          (lt_of_lt_of_le hx32 (Nat.pow_le_pow_right (by omega) (by omega)))
      have h3 : (next + 2 ^ k - 1).testBit (k + (t - k)) = false := by
        rw [show k + (t - k) = t by omega]
        exact h2
      simp [h1, h2, h3]
  · simp [htk]

theorem alignUp_ge (n a : Nat) (ha : 0 < a) : n ≤ ((n + a - 1) / a) * a := by
  have hdm := Nat.div_add_mod (n + a - 1) a
  have hml : (n + a - 1) % a < a := Nat.mod_lt _ ha
  have hcomm : (n + a - 1) / a * a = a * ((n + a - 1) / a) := Nat.mul_comm _ _
  omega

theorem alignUp_le (n a : Nat) : ((n + a - 1) / a) * a ≤ n + a - 1 :=
  Nat.div_mul_le_self _ _

set_option maxRecDepth 4000 in
/-- One `alloc` step: the served offset is aligned (for alignments up to
the page size), lies at or after the old cursor, the new cursor is its
end, and the limit stays whole pages, at least the allocation's end, and
representable. -/
theorem alloc_step (s : InnerAlloc) (size k : Nat) (off : Nat) (s' : InnerAlloc)
    (hval : validAlloc s) (hk : k ≤ 16) (h : alloc s size (2 ^ k) = some (off, s')) :
    off % 2 ^ k = 0 ∧ s.next ≤ off ∧ s'.next = off + size ∧
    off + size ≤ s'.upper_limit ∧ validAlloc s' := by
  obtain ⟨hn, hup, hlt⟩ := hval
  have hup' : s.upper_limit % 65536 = 0 := hup
  have hlt' : s.upper_limit < 4294967296 := hlt
  have h216 : (2 : Nat) ^ 16 = 65536 := by norm_num
  have h2k16 : (2 : Nat) ^ k ≤ 65536 := by
    rw [← h216]
    exact Nat.pow_le_pow_right (by omega) hk
  have h2kpos : 0 < (2 : Nat) ^ k := Nat.pos_pow_of_pos k (by omega)
  have hnb : s.next + 2 ^ k ≤ U32_LIMIT := by
    show s.next + 2 ^ k ≤ 4294967296
    omega
  have hap : align_ptr s.next (2 ^ k) = ((s.next + 2 ^ k - 1) / 2 ^ k) * 2 ^ k :=
    align_ptr_eq s.next k hk hnb
  have hA_ge : s.next ≤ align_ptr s.next (2 ^ k) := by
    rw [hap]
    exact alignUp_ge s.next (2 ^ k) h2kpos
  simp only [alloc] at h
  by_cases h1 : U32_LIMIT ≤ align_ptr s.next (2 ^ k) + size
  · rw [if_pos h1] at h
    exact Option.noConfusion h
  · rw [if_neg h1] at h
    by_cases h2 : s.upper_limit < align_ptr s.next (2 ^ k) + size
    · rw [if_pos h2] at h
      by_cases h3 : U32_LIMIT ≤ size + (PAGE_SIZE - 1)
      · have hrp : required_pages size = none := by
          unfold required_pages
          rw [if_pos h3]
        rw [hrp, Option.none_bind] at h
        exact Option.noConfusion h
      · have hrp : required_pages size = some ((size + (PAGE_SIZE - 1)) / PAGE_SIZE) := by
          unfold required_pages
          rw [if_neg h3]
        rw [hrp, Option.some_bind] at h
        by_cases h4 : s.upper_limit / PAGE_SIZE + (size + (PAGE_SIZE - 1)) / PAGE_SIZE ≤ 65536
        · have hrq : request_pages s ((size + (PAGE_SIZE - 1)) / PAGE_SIZE) =
              some s.upper_limit := by
            unfold request_pages
            rw [if_pos h4]
          rw [hrq, Option.some_bind] at h
          by_cases h5 : U32_LIMIT ≤ (size + (PAGE_SIZE - 1)) / PAGE_SIZE * PAGE_SIZE
          · rw [if_pos h5] at h
            exact Option.noConfusion h
          · rw [if_neg h5] at h
            by_cases h6 : U32_LIMIT ≤ s.upper_limit + (size + (PAGE_SIZE - 1)) / PAGE_SIZE * PAGE_SIZE
            · rw [if_pos h6] at h
              exact Option.noConfusion h
            · rw [if_neg h6] at h
              by_cases h7 : U32_LIMIT ≤ s.upper_limit + size
              · rw [if_pos h7] at h
                exact Option.noConfusion h
              · rw [if_neg h7] at h
                have hpair := Option.some.inj h
                rw [Prod.mk.injEq] at hpair
                obtain ⟨hoff, hs'⟩ := hpair
                have h6' : s.upper_limit + (size + 65535) / 65536 * 65536 < 4294967296 := by
                  have := h6
                  simp only [PAGE_SIZE, U32_LIMIT] at this
                  omega
                have hsize_le : size ≤ (size + 65535) / 65536 * 65536 := by
                  have hdm := Nat.div_add_mod (size + 65535) 65536
                  have hml : (size + 65535) % 65536 < 65536 := Nat.mod_lt _ (by omega)
                  have hcomm : (size + 65535) / 65536 * 65536 =
                      65536 * ((size + 65535) / 65536) := Nat.mul_comm _ _
                  omega
                have hdvd : 2 ^ k ∣ s.upper_limit := by
                  have d1 : (2 : Nat) ^ k ∣ 2 ^ 16 := Nat.pow_dvd_pow 2 hk
                  have d2 : (2 : Nat) ^ 16 ∣ s.upper_limit := by
                    rw [h216]
                    exact Nat.dvd_of_mod_eq_zero hup'
                  exact d1.trans d2
                obtain ⟨t, ht⟩ := hdvd
                subst hoff
                subst hs'
                have hPview : (size + (PAGE_SIZE - 1)) / PAGE_SIZE * PAGE_SIZE =
                    (size + 65535) / 65536 * 65536 := rfl
                refine ⟨?_, hn, rfl, ?_, ?_, ?_, ?_⟩
                · rw [ht]
                  exact Nat.mul_mod_right _ _
                · show s.upper_limit + size ≤
                    s.upper_limit + (size + (PAGE_SIZE - 1)) / PAGE_SIZE * PAGE_SIZE
                  rw [hPview]
                  omega
                · show s.upper_limit + size ≤
                    s.upper_limit + (size + (PAGE_SIZE - 1)) / PAGE_SIZE * PAGE_SIZE
                  rw [hPview]
                  omega
                · show (s.upper_limit + (size + (PAGE_SIZE - 1)) / PAGE_SIZE * PAGE_SIZE)
                    % PAGE_SIZE = 0
                  rw [hPview]
                  show (s.upper_limit + (size + 65535) / 65536 * 65536) % 65536 = 0
                  omega
                · show s.upper_limit + (size + (PAGE_SIZE - 1)) / PAGE_SIZE * PAGE_SIZE
                    < U32_LIMIT
                  rw [hPview]
                  exact h6'
        · have hrq : request_pages s ((size + (PAGE_SIZE - 1)) / PAGE_SIZE) = none := by
            unfold request_pages
            rw [if_neg h4]
          rw [hrq, Option.none_bind] at h
          exact Option.noConfusion h
    · rw [if_neg h2] at h
      have hpair := Option.some.inj h
      rw [Prod.mk.injEq] at hpair
      obtain ⟨hoff, hs'⟩ := hpair
      subst hoff
      subst hs'
      refine ⟨?_, hA_ge, rfl, ?_, ?_, hup, hlt⟩
      · rw [hap]
        exact Nat.mul_mod_left _ _
      · show align_ptr s.next (2 ^ k) + size ≤ s.upper_limit
        omega
      · show align_ptr s.next (2 ^ k) + size ≤ s.upper_limit
        omega

/-- Shared helper: a whole request sequence served by the allocator
yields per-request aligned offsets and ordered, pairwise disjoint
regions, never reusing the fragmented tail of an abandoned region. -/
theorem allocSeq_spec : ∀ (reqs : List (Nat × Nat)) (s0 : InnerAlloc)
    (out : List (Nat × Nat)) (sfin : InnerAlloc),
    validAlloc s0 → (∀ q, q ∈ reqs → q.2 ≤ 16) → allocSeq s0 reqs = some (out, sfin) →
    List.Forall₂ (fun r q : Nat × Nat => r.2 = q.1 ∧ r.1 % 2 ^ q.2 = 0) out reqs ∧
    out.Pairwise (fun r1 r2 : Nat × Nat => r1.1 + r1.2 ≤ r2.1) ∧
    (∀ r, r ∈ out → s0.next ≤ r.1) ∧ validAlloc sfin := by
  intro reqs
  induction reqs with
  | nil =>
    intro s0 out sfin hval hks h
    simp only [allocSeq] at h
    have hpair := Option.some.inj h
    rw [Prod.mk.injEq] at hpair
    obtain ⟨hout, hsfin⟩ := hpair
    subst hout
    subst hsfin
    exact ⟨List.Forall₂.nil, List.Pairwise.nil, by simp, hval⟩
  | cons q rest ih =>
    intro s0 out sfin hval hks h
    obtain ⟨size, k⟩ := q
    simp only [allocSeq] at h
    cases halloc : alloc s0 size (2 ^ k) with
    | none =>
      rw [halloc, Option.none_bind] at h
      exact Option.noConfusion h
    | some res =>
      obtain ⟨off, s1⟩ := res
      rw [halloc, Option.some_bind] at h
      dsimp only at h
      cases hrest : allocSeq s1 rest with
      | none =>
        rw [hrest] at h
        exact Option.noConfusion h
      | some pr =>
        obtain ⟨out1, sfin1⟩ := pr
        rw [hrest] at h
        simp only [Option.map_some'] at h
        have hpair := Option.some.inj h
        rw [Prod.mk.injEq] at hpair
        obtain ⟨hout, hsfin⟩ := hpair
        subst hout
        subst hsfin
        have hk : k ≤ 16 := hks (size, k) (List.mem_cons_self _ _)
        obtain ⟨hmod, hge, hnext1, hend, hval1⟩ :=
          alloc_step s0 size k off s1 hval hk halloc
        obtain ⟨hf2, hpw, hstart, hvalf⟩ :=
          ih s1 out1 sfin1 hval1 (fun q hq => hks q (List.mem_cons_of_mem _ hq)) hrest
        refine ⟨List.Forall₂.cons ⟨rfl, hmod⟩ hf2, ?_, ?_, hvalf⟩
        · rw [List.pairwise_cons]
          refine ⟨?_, hpw⟩
          intro r hr
          have hs1r := hstart r hr
          show off + size ≤ r.1
          omega
        · intro r hr
          rcases List.mem_cons.mp hr with he | ht
          · subst he
            exact hge
          · have hs1r := hstart r ht
            show s0.next ≤ r.1
            omega

/-! ## Claim C9 (corrected) -/

set_option maxRecDepth 8000 in
/-- C9, counterexample to the claim as stated: from the fresh state, an
allocation of alignment `2^17` (larger than the 64 KiB page) served from
the grow path returns offset 65536, which is not a multiple of `2^17`. -/
theorem c9_alloc_counterexample :
    allocSeq ⟨0, 0⟩ [(1, 0), (1, 17)] = some ([(0, 1), (65536, 1)], ⟨65537, 131072⟩) ∧
    65536 % 2 ^ 17 ≠ 0 := by
  constructor <;> decide

set_option maxRecDepth 8000 in
/-- C9 as amended: for every sequence of allocation requests with sizes
`s_i` and power-of-two alignments `2^(k_i)` with `k_i ≤ 16` (at most the
64 KiB page size), served from a well-formed state, the returned offsets
denote pairwise non-overlapping regions in increasing address order,
each offset is a multiple of its requested alignment, and after each
allocation the upper limit is a whole multiple of the page size and at
least the allocation's end (growth rounds up to whole pages; the
fragmented tail of the old region is never reused, as every served
offset is at or beyond the free cursor). -/
theorem c9_alloc_invariants (s : InnerAlloc) (size k off : Nat) (s' : InnerAlloc)
    (hval : validAlloc s) (hk : k ≤ 16) (h : alloc s size (2 ^ k) = some (off, s')) :
    (off % 2 ^ k = 0 ∧ s.next ≤ off ∧ s'.next = off + size ∧
     off + size ≤ s'.upper_limit ∧ s'.upper_limit % PAGE_SIZE = 0) ∧
    (∀ (reqs : List (Nat × Nat)) (s0 : InnerAlloc) (out : List (Nat × Nat))
      (sfin : InnerAlloc), validAlloc s0 → (∀ q, q ∈ reqs → q.2 ≤ 16) →
      allocSeq s0 reqs = some (out, sfin) →
      List.Forall₂ (fun r q : Nat × Nat => r.2 = q.1 ∧ r.1 % 2 ^ q.2 = 0) out reqs ∧
      out.Pairwise (fun r1 r2 : Nat × Nat => r1.1 + r1.2 ≤ r2.1)) := by
  obtain ⟨hmod, hge, hnext, hend, hv⟩ := alloc_step s size k off s' hval hk h
  refine ⟨⟨hmod, hge, hnext, hend, hv.2.1⟩, ?_⟩
  intro reqs s0 out sfin hv0 hks hseq
  obtain ⟨hf2, hpw, _, _⟩ := allocSeq_spec reqs s0 out sfin hv0 hks hseq
  exact ⟨hf2, hpw⟩

set_option maxRecDepth 8000 in
/-- Witness for C9: a grow-path allocation of 10 bytes at alignment 8
from the fresh state. -/
theorem c9_alloc_invariants_witness :
    (0 : Nat) % 2 ^ 3 = 0 ∧ (⟨0, 0⟩ : InnerAlloc).next ≤ 0 ∧
    (⟨10, 65536⟩ : InnerAlloc).next = 0 + 10 ∧
    0 + 10 ≤ (⟨10, 65536⟩ : InnerAlloc).upper_limit ∧
    (⟨10, 65536⟩ : InnerAlloc).upper_limit % PAGE_SIZE = 0 :=
  (c9_alloc_invariants ⟨0, 0⟩ 10 3 0 ⟨10, 65536⟩ ⟨by decide, by decide, by decide⟩
    (by decide) (by decide)).1

end MPT
